import Mathlib

/-!
Verification development for the linked-list core of `jetsam-core`
(`src/lib/types/LinkedList.ts`): a singly linked list (`LinkedList`) and a
doubly linked list (`DoublyLinkedList`) built on shared chain construction.

The TypeScript classes mutate heap-allocated nodes through references.  We
embed them with an explicit arena: the heap of nodes is a `List (Node α)`
and a node reference is its index (address) in that arena.  New nodes are
appended at the end of the arena (fresh addresses); removed nodes simply
become unreachable, exactly as garbage in the source.  `undefined` pointers
and `Item | undefined` results are `Option`.

Because `DoublyLinkedList extends LinkedList` and all link-sensitive methods
(`createChain`, `addChainToStart`, `addChainToEnd`, `shift`) are virtual,
each shared operation takes a flag `dbl : Bool` selecting the variant's
override, mirroring dynamic dispatch: `dbl = false` is `LinkedList`,
`dbl = true` is `DoublyLinkedList`.
-/

namespace Jetsam

/-- A node in a linked list (`LinkedListNode<Item>`): the item plus optional
`prev`/`next` references, here arena addresses. -/
structure Node (α : Type) where
  item : α
  prev : Option Nat
  next : Option Nat

/-- A chain of freshly linked nodes (`LinkedListChain<Item>`), delineated by
the addresses of its first and last nodes and its node count. -/
structure Chain where
  first : Nat
  last : Nat
  count : Nat

/-- The state of a list object: the node arena together with the fields
`head`, `tail` and `count` of `LinkedList`. -/
structure ListState (α : Type) where
  nodes : List (Node α)
  head : Option Nat
  tail : Option Nat
  count : Nat

variable {α : Type}

/-- Dereference `node.item` at an arena address. -/
def itemAt (ns : List (Node α)) (i : Nat) : Option α :=
  (ns[i]?).map Node.item

/-- Dereference `node.next` at an arena address. -/
def nextAt (ns : List (Node α)) (i : Nat) : Option Nat :=
  (ns[i]?).bind Node.next

/-- Dereference `node.prev` at an arena address. -/
def prevAt (ns : List (Node α)) (i : Nat) : Option Nat :=
  (ns[i]?).bind Node.prev

/-- Heap update `node.next = v` at address `i`. -/
def updNext (ns : List (Node α)) (i : Nat) (v : Option Nat) : List (Node α) :=
  match ns[i]? with
  | none => ns
  | some nd => ns.set i { nd with next := v }

/-- Heap update `node.prev = v` at address `i`. -/
def updPrev (ns : List (Node α)) (i : Nat) (v : Option Nat) : List (Node α) :=
  match ns[i]? with
  | none => ns
  | some nd => ns.set i { nd with prev := v }

/-- The nodes allocated by `createChain(item, ...others)`, to be appended to
an arena of size `base`.  The loop builds one node per item, linking
`last.next` to each new node; the doubly linked override additionally sets
each new node's `prev` to the node built before it (`p` is the `prev` value
for the node holding `x`: `none` for the first node of the chain). -/
def chainNodes (dbl : Bool) (p : Option Nat) (base : Nat) (x : α) :
    List α → List (Node α)
  | [] => [⟨x, if dbl then p else none, none⟩]
  | y :: rest =>
      ⟨x, if dbl then p else none, some (base + 1)⟩ ::
        chainNodes dbl (some base) (base + 1) y rest

/-- `createChain(item, ...others)`: allocate the chain's nodes in the arena
and return the resulting `{first, last, count}` chain descriptor. -/
def createChain (dbl : Bool) (s : ListState α) (x : α) (others : List α) :
    ListState α × Chain :=
  let base := s.nodes.length
  ({ s with nodes := s.nodes ++ chainNodes dbl none base x others },
   ⟨base, base + others.length, 1 + others.length⟩)

/-- `addChainToEnd(chain)`: if there is a tail, link `tail.next = chain.first`
(and, doubly linked, `chain.first.prev = tail`); otherwise `head =
chain.first`.  Then `tail = chain.last` and `count += chain.count`. -/
def addChainToEnd (dbl : Bool) (s : ListState α) (c : Chain) : ListState α :=
  match s.tail with
  | some t =>
      let ns1 := updNext s.nodes t (some c.first)
      let ns2 := if dbl then updPrev ns1 c.first (some t) else ns1
      { s with nodes := ns2, tail := some c.last, count := s.count + c.count }
  | none =>
      { s with head := some c.first, tail := some c.last,
               count := s.count + c.count }

/-- `addChainToStart(chain)`.  Singly linked: `chain.last.next = head`
(unconditionally), `head = chain.first`, `count += chain.count`, and if
`tail` was absent it becomes `chain.last`.  Doubly linked override: if a
head exists, `chain.last.next = head` and `head.prev = chain.last`;
otherwise `tail = chain.last`; then `head = chain.first`,
`count += chain.count`. -/
def addChainToStart (dbl : Bool) (s : ListState α) (c : Chain) : ListState α :=
  if dbl then
    match s.head with
    | some h =>
        let ns1 := updNext s.nodes c.last (some h)
        let ns2 := updPrev ns1 h (some c.last)
        { s with nodes := ns2, head := some c.first,
                 count := s.count + c.count }
    | none =>
        { s with tail := some c.last, head := some c.first,
                 count := s.count + c.count }
  else
    let s1 := { s with nodes := updNext s.nodes c.last s.head,
                       head := some c.first, count := s.count + c.count }
    if s1.tail = none then { s1 with tail := some c.last } else s1

/-- The fresh empty list state (fields before the constructor body runs). -/
def emptyState : ListState α := ⟨[], none, none, 0⟩

/-- `push(item, ...others)`: create a chain and add it to the end. -/
def push (dbl : Bool) (s : ListState α) (x : α) (others : List α) :
    ListState α :=
  let sc := createChain dbl s x others
  addChainToEnd dbl sc.1 sc.2

/-- `unshift(item, ...others)`: create a chain and add it to the start. -/
def unshift (dbl : Bool) (s : ListState α) (x : α) (others : List α) :
    ListState α :=
  let sc := createChain dbl s x others
  addChainToStart dbl sc.1 sc.2

/-- The constructor `new LinkedList(...items)` / `new DoublyLinkedList(...)`:
from the fresh empty state, if any items were given, build one chain from
them and add it to the end (via the variant's overrides). -/
def newList (dbl : Bool) (items : List α) : ListState α :=
  match items with
  | [] => emptyState
  | x :: rest =>
      let sc := createChain dbl (emptyState (α := α)) x rest
      addChainToEnd dbl sc.1 sc.2

/-- The body of `LinkedList.shift()`: if `head` is absent return absent,
else advance `head = node.next` (and `tail` too when `tail` was that very
node), decrement `count`, and return the removed node's item. -/
def baseShift (s : ListState α) : ListState α × Option α :=
  match s.head with
  | none => (s, none)
  | some h =>
      ({ s with head := nextAt s.nodes h,
                tail := if s.tail = some h then nextAt s.nodes h else s.tail,
                count := s.count - 1 },
       itemAt s.nodes h)

/-- `shift()` with dispatch: the doubly linked override calls the base
version and then clears the new head's `prev` (when a head remains). -/
def shift (dbl : Bool) (s : ListState α) : ListState α × Option α :=
  let r := baseShift s
  if dbl then
    match r.1.head with
    | some h2 => ({ r.1 with nodes := updPrev r.1.nodes h2 none }, r.2)
    | none => r
  else r

/-- `DoublyLinkedList.pop()`: if `tail` is absent return absent, else
retreat `tail = node.prev`; if the new tail is absent clear `head`,
otherwise clear the new tail's `next`; decrement `count`; return the
removed node's item. -/
def pop (s : ListState α) : ListState α × Option α :=
  match s.tail with
  | none => (s, none)
  | some t =>
      let p := prevAt s.nodes t
      let s2 :=
        match p with
        | none => { s with tail := p, head := none, count := s.count - 1 }
        | some t2 =>
            { s with nodes := updNext s.nodes t2 none, tail := p,
                     count := s.count - 1 }
      (s2, itemAt s.nodes t)

/-- `length()`: the current count. -/
def length (s : ListState α) : Nat := s.count

/-- `empty()`: whether the count is zero. -/
def emptyQ (s : ListState α) : Bool := s.count == 0

/-- `first()`: `head?.item`. -/
def first (s : ListState α) : Option α := s.head.bind (itemAt s.nodes)

/-- `last()`: `tail?.item`. -/
def last (s : ListState α) : Option α := s.tail.bind (itemAt s.nodes)

/-- One-shot cursor collection shared by the forward and reverse iterator
classes: starting from pointer `p`, repeatedly yield the current node's item
and advance along the direction `σ` (`nextAt` forward, `prevAt` reverse)
until the pointer is absent.  `fuel` bounds the number of steps; on every
reachable state `count` steps suffice (proved below), so the bound is never
hit where the source iterator terminates. -/
def iterVia (ns : List (Node α)) (σ : Nat → Option Nat) :
    Nat → Option Nat → List α
  | 0, _ => []
  | _ + 1, none => []
  | fuel + 1, some i =>
      match ns[i]? with
      | none => []
      | some nd => nd.item :: iterVia ns σ fuel (σ i)

/-- `toArray()`: collect the forward iteration (from `head` along `next`). -/
def toArray (s : ListState α) : List α :=
  iterVia s.nodes (nextAt s.nodes) s.count s.head

/-- Items collected by iterating `riterator()` (from `tail` along `prev`). -/
def riterToArray (s : ListState α) : List α :=
  iterVia s.nodes (prevAt s.nodes) s.count s.tail

/-- JavaScript `Array.prototype.toString`: elements rendered to text and
joined with the separator `,`. -/
def arrayToString (f : α → String) (xs : List α) : String :=
  String.intercalate "," (xs.map f)

/-- `toString()`: `this.toArray().toString()`; `f` renders one item the way
JavaScript string conversion would. -/
def toStringL (s : ListState α) (f : α → String) : String :=
  arrayToString f (toArray s)

/-- `toJSON()`: `this.toArray()`. -/
def toJSON (s : ListState α) : List α := toArray s

/-- Repeated pointer dereference: `follow ns k p` follows `next` from the
pointer `p` exactly `k` times (an absent pointer stays absent). -/
def follow (ns : List (Node α)) : Nat → Option Nat → Option Nat
  | 0, p => p
  | k + 1, p => follow ns k (p.bind (nextAt ns))

/-- The state after `k` successive calls to `shift()`. -/
def shiftN (dbl : Bool) : Nat → ListState α → ListState α
  | 0, s => s
  | k + 1, s => shiftN dbl k (shift dbl s).1

/-- The value returned by the `(k+1)`-th call to `shift()` (after `k`
previous calls). -/
def shiftRet (dbl : Bool) (k : Nat) (s : ListState α) : Option α :=
  (shift dbl (shiftN dbl k s)).2

/-- A world of list instances addressed by references, used to express that
a method returns `this`: `pushAt` invokes `push` on the instance at
reference `r` and yields the updated world together with the reference the
method returns (the source returns `this`). -/
def pushAt (dbl : Bool) (w : Nat → ListState α) (r : Nat) (x : α)
    (others : List α) : (Nat → ListState α) × Nat :=
  (fun a => if a = r then push dbl (w a) x others else w a, r)

/-- Same as `pushAt` for `unshift`. -/
def unshiftAt (dbl : Bool) (w : Nat → ListState α) (r : Nat) (x : α)
    (others : List α) : (Nat → ListState α) × Nat :=
  (fun a => if a = r then unshift dbl (w a) x others else w a, r)

/-! ### Pointer paths

`PathVia σ bd p l q` says: starting from pointer `p` and repeatedly
dereferencing via `σ` (which will be `nextAt ns` or `prevAt ns`), one visits
exactly the addresses in `l` (all below the bound `bd`, the arena size) and
is left with pointer `q`. -/

/-- A pointer path through the arena along direction `σ`. -/
def PathVia (σ : Nat → Option Nat) (bd : Nat) :
    Option Nat → List Nat → Option Nat → Prop
  | p, [], q => p = q
  | p, a :: rest, q => p = some a ∧ a < bd ∧ PathVia σ bd (σ a) rest q

/-- The items held by a list of arena addresses. -/
def itemsOf (ns : List (Node α)) (l : List Nat) : List α :=
  l.filterMap (itemAt ns)

/-! ### Representation invariant

`Rep dbl s addrs` says the list state `s` is a well formed list whose nodes
sit at the addresses `addrs` (in front-to-back order): following `next` from
`head` visits exactly `addrs` and ends absent, `tail` is the last address,
`count` the number of addresses, and (doubly linked) following `prev` from
`tail` visits the addresses backwards and ends absent. -/

structure Rep (dbl : Bool) (s : ListState α) (addrs : List Nat) : Prop where
  nextPath : PathVia (nextAt s.nodes) s.nodes.length s.head addrs none
  prevPath : dbl = true →
    PathVia (prevAt s.nodes) s.nodes.length s.tail addrs.reverse none
  tailEq : s.tail = addrs.getLast?
  countEq : s.count = addrs.length
  nodup : addrs.Nodup

/-- States reachable by any sequence of construction, `push`, `unshift`,
`shift` and (doubly linked only) `pop`. -/
inductive Reach (dbl : Bool) : ListState α → Prop
  | newR (items : List α) : Reach dbl (newList dbl items)
  | pushR {s : ListState α} (x : α) (others : List α) :
      Reach dbl s → Reach dbl (push dbl s x others)
  | unshiftR {s : ListState α} (x : α) (others : List α) :
      Reach dbl s → Reach dbl (unshift dbl s x others)
  | shiftR {s : ListState α} : Reach dbl s → Reach dbl (shift dbl s).1
  | popR {s : ListState α} : Reach dbl s → dbl = true → Reach dbl (pop s).1

theorem pathVia_nil {σ : Nat → Option Nat} {bd : Nat} {p q : Option Nat} :
    PathVia σ bd p [] q ↔ p = q := Iff.rfl

theorem pathVia_cons {σ : Nat → Option Nat} {bd : Nat} {p q : Option Nat}
    {a : Nat} {rest : List Nat} :
    PathVia σ bd p (a :: rest) q ↔
      p = some a ∧ a < bd ∧ PathVia σ bd (σ a) rest q := Iff.rfl

theorem pathVia_bounded {σ : Nat → Option Nat} {bd : Nat} {p q : Option Nat}
    {l : List Nat} (hp : PathVia σ bd p l q) : ∀ a ∈ l, a < bd := by
  induction l generalizing p with
  | nil => intro a ha; cases ha
  | cons a rest ih =>
      intro b hb
      rcases hp with ⟨-, ha, hrest⟩
      rcases List.mem_cons.1 hb with rfl | hb
      · exact ha
      · exact ih hrest b hb

theorem pathVia_congr {σ σ' : Nat → Option Nat} {bd bd' : Nat}
    {p q : Option Nat} {l : List Nat} (hσ : ∀ a ∈ l, σ a = σ' a)
    (hbd : bd ≤ bd') (hp : PathVia σ bd p l q) : PathVia σ' bd' p l q := by
  induction l generalizing p with
  | nil => exact hp
  | cons a rest ih =>
      rcases hp with ⟨hpa, ha, hrest⟩
      refine ⟨hpa, lt_of_lt_of_le ha hbd, ?_⟩
      rw [← hσ a (List.mem_cons_self a rest)]
      exact ih (fun b hb => hσ b (List.mem_cons_of_mem a hb)) hrest

theorem pathVia_append {σ : Nat → Option Nat} {bd : Nat} {p q r : Option Nat}
    {l1 l2 : List Nat} (h1 : PathVia σ bd p l1 q) (h2 : PathVia σ bd q l2 r) :
    PathVia σ bd p (l1 ++ l2) r := by
  induction l1 generalizing p with
  | nil => rw [pathVia_nil] at h1; rwa [List.nil_append, h1]
  | cons a rest ih =>
      rcases h1 with ⟨hpa, ha, hrest⟩
      exact ⟨hpa, ha, ih hrest⟩

theorem pathVia_append_inv {σ : Nat → Option Nat} {bd : Nat}
    {p r : Option Nat} {l1 l2 : List Nat}
    (h : PathVia σ bd p (l1 ++ l2) r) :
    ∃ q, PathVia σ bd p l1 q ∧ PathVia σ bd q l2 r := by
  induction l1 generalizing p with
  | nil => exact ⟨p, rfl, h⟩
  | cons a rest ih =>
      rcases h with ⟨hpa, ha, hrest⟩
      rcases ih hrest with ⟨q, hq1, hq2⟩
      exact ⟨q, ⟨hpa, ha, hq1⟩, hq2⟩

theorem pathVia_head? {σ : Nat → Option Nat} {bd : Nat} {p q : Option Nat}
    {l : List Nat} (hp : PathVia σ bd p l q) (hl : l ≠ []) : p = l.head? := by
  cases l with
  | nil => exact absurd rfl hl
  | cons a rest => exact hp.1

theorem pathVia_singleton {σ : Nat → Option Nat} {bd : Nat}
    {p q : Option Nat} {a : Nat} :
    PathVia σ bd p [a] q ↔ p = some a ∧ a < bd ∧ σ a = q := Iff.rfl

/-! ### Heap access lemmas -/

theorem getElem?_append_lt {ns ms : List (Node α)} {i : Nat}
    (h : i < ns.length) : (ns ++ ms)[i]? = ns[i]? :=
  List.getElem?_append_left h

theorem nextAt_append {ns ms : List (Node α)} {i : Nat}
    (h : i < ns.length) : nextAt (ns ++ ms) i = nextAt ns i := by
  simp [nextAt, getElem?_append_lt h]

theorem prevAt_append {ns ms : List (Node α)} {i : Nat}
    (h : i < ns.length) : prevAt (ns ++ ms) i = prevAt ns i := by
  simp [prevAt, getElem?_append_lt h]

theorem itemAt_append {ns ms : List (Node α)} {i : Nat}
    (h : i < ns.length) : itemAt (ns ++ ms) i = itemAt ns i := by
  simp [itemAt, getElem?_append_lt h]

theorem length_updNext (ns : List (Node α)) (i : Nat) (v : Option Nat) :
    (updNext ns i v).length = ns.length := by
  unfold updNext
  cases h : ns[i]? with
  | none => rfl
  | some nd => simp

theorem length_updPrev (ns : List (Node α)) (i : Nat) (v : Option Nat) :
    (updPrev ns i v).length = ns.length := by
  unfold updPrev
  cases h : ns[i]? with
  | none => rfl
  | some nd => simp

theorem getElem?_updNext_ne {ns : List (Node α)} {i j : Nat}
    (hij : i ≠ j) (v : Option Nat) : (updNext ns i v)[j]? = ns[j]? := by
  unfold updNext
  cases h : ns[i]? with
  | none => rfl
  | some nd => simp [List.getElem?_set_ne hij]

theorem getElem?_updPrev_ne {ns : List (Node α)} {i j : Nat}
    (hij : i ≠ j) (v : Option Nat) : (updPrev ns i v)[j]? = ns[j]? := by
  unfold updPrev
  cases h : ns[i]? with
  | none => rfl
  | some nd => simp [List.getElem?_set_ne hij]

theorem nextAt_updNext_self {ns : List (Node α)} {i : Nat}
    (h : i < ns.length) (v : Option Nat) : nextAt (updNext ns i v) i = v := by
  unfold updNext
  cases hg : ns[i]? with
  | none => rw [List.getElem?_eq_some_iff.2 ⟨h, rfl⟩] at hg; cases hg
  | some nd => simp [nextAt, List.getElem?_set_self (by simpa using h)]

theorem nextAt_updNext_ne {ns : List (Node α)} {i j : Nat} (hij : i ≠ j)
    (v : Option Nat) : nextAt (updNext ns i v) j = nextAt ns j := by
  simp [nextAt, getElem?_updNext_ne hij]

theorem prevAt_updNext (ns : List (Node α)) (i : Nat) (v : Option Nat)
    (j : Nat) : prevAt (updNext ns i v) j = prevAt ns j := by
  unfold updNext
  cases hg : ns[i]? with
  | none => rfl
  | some nd =>
      rcases eq_or_ne i j with rfl | hij
      · have hi : i < ns.length := (List.getElem?_eq_some_iff.1 hg).1
        simp [prevAt, List.getElem?_set_self (by simpa using hi), hg]
      · simp [prevAt, List.getElem?_set_ne hij]

theorem itemAt_updNext (ns : List (Node α)) (i : Nat) (v : Option Nat)
    (j : Nat) : itemAt (updNext ns i v) j = itemAt ns j := by
  unfold updNext
  cases hg : ns[i]? with
  | none => rfl
  | some nd =>
      rcases eq_or_ne i j with rfl | hij
      · have hi : i < ns.length := (List.getElem?_eq_some_iff.1 hg).1
        simp [itemAt, List.getElem?_set_self (by simpa using hi), hg]
      · simp [itemAt, List.getElem?_set_ne hij]

theorem prevAt_updPrev_self {ns : List (Node α)} {i : Nat}
    (h : i < ns.length) (v : Option Nat) : prevAt (updPrev ns i v) i = v := by
  unfold updPrev
  cases hg : ns[i]? with
  | none => rw [List.getElem?_eq_some_iff.2 ⟨h, rfl⟩] at hg; cases hg
  | some nd => simp [prevAt, List.getElem?_set_self (by simpa using h)]

theorem prevAt_updPrev_ne {ns : List (Node α)} {i j : Nat} (hij : i ≠ j)
    (v : Option Nat) : prevAt (updPrev ns i v) j = prevAt ns j := by
  simp [prevAt, getElem?_updPrev_ne hij]

theorem nextAt_updPrev (ns : List (Node α)) (i : Nat) (v : Option Nat)
    (j : Nat) : nextAt (updPrev ns i v) j = nextAt ns j := by
  unfold updPrev
  cases hg : ns[i]? with
  | none => rfl
  | some nd =>
      rcases eq_or_ne i j with rfl | hij
      · have hi : i < ns.length := (List.getElem?_eq_some_iff.1 hg).1
        simp [nextAt, List.getElem?_set_self (by simpa using hi), hg]
      · simp [nextAt, List.getElem?_set_ne hij]

theorem itemAt_updPrev (ns : List (Node α)) (i : Nat) (v : Option Nat)
    (j : Nat) : itemAt (updPrev ns i v) j = itemAt ns j := by
  unfold updPrev
  cases hg : ns[i]? with
  | none => rfl
  | some nd =>
      rcases eq_or_ne i j with rfl | hij
      · have hi : i < ns.length := (List.getElem?_eq_some_iff.1 hg).1
        simp [itemAt, List.getElem?_set_self (by simpa using hi), hg]
      · simp [itemAt, List.getElem?_set_ne hij]

/-! ### Chain lemmas -/

theorem itemsOf_nil (ns : List (Node α)) : itemsOf ns [] = [] := rfl

theorem itemsOf_cons {ns : List (Node α)} {a : Nat} {l : List Nat} {x : α}
    (h : itemAt ns a = some x) :
    itemsOf ns (a :: l) = x :: itemsOf ns l := by
  simp [itemsOf, List.filterMap_cons, h]

theorem itemsOf_congr {ns ns' : List (Node α)} {l : List Nat}
    (h : ∀ a ∈ l, itemAt ns a = itemAt ns' a) : itemsOf ns l = itemsOf ns' l := by
  unfold itemsOf
  induction l with
  | nil => rfl
  | cons a rest ih =>
      rw [List.filterMap_cons, List.filterMap_cons,
        h a (List.mem_cons_self a rest),
        ih (fun b hb => h b (List.mem_cons_of_mem a hb))]

theorem itemsOf_append (ns : List (Node α)) (l1 l2 : List Nat) :
    itemsOf ns (l1 ++ l2) = itemsOf ns l1 ++ itemsOf ns l2 := by
  simp [itemsOf]

theorem itemsOf_reverse (ns : List (Node α)) (l : List Nat) :
    itemsOf ns l.reverse = (itemsOf ns l).reverse := by
  simp [itemsOf]

theorem length_itemsOf {ns : List (Node α)} {l : List Nat}
    (h : ∀ a ∈ l, a < ns.length) : (itemsOf ns l).length = l.length := by
  unfold itemsOf
  induction l with
  | nil => rfl
  | cons a rest ih =>
      have ha : a < ns.length := h a (List.mem_cons_self a rest)
      have hi : itemAt ns a = some (ns[a].item) := by
        simp [itemAt, List.getElem?_eq_getElem ha]
      rw [List.filterMap_cons, hi]
      simpa using ih (fun b hb => h b (List.mem_cons_of_mem a hb))

theorem length_chainNodes (dbl : Bool) (p : Option Nat) (base : Nat) (x : α)
    (others : List α) :
    (chainNodes dbl p base x others).length = 1 + others.length := by
  induction others generalizing p base x with
  | nil => rfl
  | cons y rest ih => simp [chainNodes, ih]; omega

theorem getElem?_append_first (ms : List (Node α)) (nd : Node α)
    (rest : List (Node α)) : (ms ++ nd :: rest)[ms.length]? = some nd := by
  rw [List.getElem?_append_right (Nat.le_refl _)]
  simp

theorem chain_next_path {dbl : Bool} {p : Option Nat} {x : α}
    {others : List α} {ns : List (Node α)} {bd : Nat}
    (hbd : ns.length + (1 + others.length) ≤ bd) :
    PathVia (nextAt (ns ++ chainNodes dbl p ns.length x others)) bd
      (some ns.length) (List.range' ns.length (1 + others.length)) none := by
  induction others generalizing ns p x with
  | nil =>
      refine pathVia_singleton.2 ⟨rfl, by omega, ?_⟩
      simp [chainNodes, nextAt, getElem?_append_first]
  | cons y rest ih =>
      simp only [List.length_cons] at hbd
      have hsplit :
          ns ++ chainNodes dbl p ns.length x (y :: rest) =
            (ns ++ [⟨x, if dbl then p else none, some (ns.length + 1)⟩]) ++
              chainNodes dbl (some ns.length) (ns.length + 1) y rest := by
        simp [chainNodes]
      have hlen : (ns ++
          [(⟨x, if dbl then p else none, some (ns.length + 1)⟩ : Node α)]).length
          = ns.length + 1 := by simp
      have ihh := @ih (some ns.length) y (ns ++ [⟨x, if dbl then p else none,
        some (ns.length + 1)⟩]) (by rw [hlen]; omega)
      rw [hlen] at ihh
      rw [show (1 + (y :: rest).length) = (1 + rest.length) + 1 by
            simp only [List.length_cons]; omega,
        List.range'_succ]
      refine pathVia_cons.2 ⟨rfl, by omega, ?_⟩
      have hstep : nextAt (ns ++ chainNodes dbl p ns.length x (y :: rest))
          ns.length = some (ns.length + 1) := by
        show nextAt (ns ++ (⟨x, if dbl then p else none, some (ns.length + 1)⟩ :
            Node α) :: chainNodes dbl (some ns.length) (ns.length + 1) y rest)
          ns.length = _
        simp only [nextAt]
        rw [getElem?_append_first]
        rfl
      rw [hstep, hsplit]
      simpa using ihh

theorem chain_items {dbl : Bool} {p : Option Nat} {x : α} {others : List α}
    {ns : List (Node α)} :
    itemsOf (ns ++ chainNodes dbl p ns.length x others)
      (List.range' ns.length (1 + others.length)) = x :: others := by
  induction others generalizing ns p x with
  | nil =>
      have h2 : itemAt (ns ++ chainNodes dbl p ns.length x []) ns.length
          = some x := by
        simp only [chainNodes, itemAt]
        rw [getElem?_append_first]
        rfl
      show itemsOf _ (List.range' ns.length 1) = [x]
      rw [List.range'_one, itemsOf_cons h2, itemsOf_nil]
  | cons y rest ih =>
      rw [show (1 + (y :: rest).length) = (1 + rest.length) + 1 by
            simp only [List.length_cons]; omega,
        List.range'_succ]
      have h2 : itemAt (ns ++ chainNodes dbl p ns.length x (y :: rest))
          ns.length = some x := by
        show itemAt (ns ++ (⟨x, if dbl then p else none, some (ns.length + 1)⟩ :
            Node α) :: chainNodes dbl (some ns.length) (ns.length + 1) y rest)
          ns.length = _
        simp only [itemAt]
        rw [getElem?_append_first]
        rfl
      rw [itemsOf_cons h2]
      have hlen : (ns ++ [(⟨x, if dbl then p else none,
          some (ns.length + 1)⟩ : Node α)]).length = ns.length + 1 := by simp
      have ihh := @ih (some ns.length) y (ns ++ [⟨x, if dbl then p else none,
        some (ns.length + 1)⟩])
      rw [hlen] at ihh
      have harena : ns ++ chainNodes dbl p ns.length x (y :: rest) =
          (ns ++ [⟨x, if dbl then p else none, some (ns.length + 1)⟩]) ++
            chainNodes dbl (some ns.length) (ns.length + 1) y rest := by
        simp [chainNodes]
      rw [harena, ihh]

theorem chain_prev_path {p : Option Nat} {x : α} {others : List α}
    {ns : List (Node α)} {bd : Nat}
    (hbd : ns.length + (1 + others.length) ≤ bd) :
    PathVia (prevAt (ns ++ chainNodes true p ns.length x others)) bd
      (some (ns.length + others.length))
      (List.range' ns.length (1 + others.length)).reverse p := by
  induction others generalizing ns p x with
  | nil =>
      show PathVia _ bd (some (ns.length + 0)) (List.range' ns.length 1).reverse p
      rw [List.range'_one, List.reverse_singleton]
      refine pathVia_singleton.2 ⟨rfl, by omega, ?_⟩
      simp only [chainNodes, prevAt]
      rw [getElem?_append_first]
      rfl
  | cons y rest ih =>
      simp only [List.length_cons] at hbd
      have harena : ns ++ chainNodes true p ns.length x (y :: rest) =
          (ns ++ [⟨x, p, some (ns.length + 1)⟩]) ++
            chainNodes true (some ns.length) (ns.length + 1) y rest := by
        simp [chainNodes]
      have hlen : (ns ++ [(⟨x, p, some (ns.length + 1)⟩ : Node α)]).length
          = ns.length + 1 := by simp
      have ihh := @ih (some ns.length) y (ns ++ [⟨x, p, some (ns.length + 1)⟩])
        (by rw [hlen]; omega)
      rw [hlen] at ihh
      rw [show (1 + (y :: rest).length) = (1 + rest.length) + 1 by
            simp only [List.length_cons]; omega,
        List.range'_succ, List.reverse_cons]
      have hstart : ns.length + (y :: rest).length
          = ns.length + 1 + rest.length := by
        simp only [List.length_cons]; omega
      rw [hstart, harena]
      refine pathVia_append (q := some ns.length) ihh ?_
      refine pathVia_singleton.2 ⟨rfl, by omega, ?_⟩
      rw [show (ns ++ [(⟨x, p, some (ns.length + 1)⟩ : Node α)]) ++
            chainNodes true (some ns.length) (ns.length + 1) y rest =
          ns ++ (⟨x, p, some (ns.length + 1)⟩ : Node α) ::
            chainNodes true (some ns.length) (ns.length + 1) y rest by simp]
      simp only [prevAt]
      rw [getElem?_append_first]
      rfl

theorem pathVia_set_last {σ σ' : Nat → Option Nat} {bd : Nat}
    {p q v : Option Nat} {l : List Nat} {t : Nat}
    (h : PathVia σ bd p (l ++ [t]) q) (hagree : ∀ a ∈ l, σ a = σ' a)
    (ht : σ' t = v) : PathVia σ' bd p (l ++ [t]) v := by
  rcases pathVia_append_inv h with ⟨q', h1, h2⟩
  rcases pathVia_singleton.1 h2 with ⟨hq', hlt, -⟩
  exact pathVia_append (pathVia_congr hagree (le_refl bd) h1)
    (pathVia_singleton.2 ⟨hq', hlt, ht⟩)

theorem range'_getLast? (b n : Nat) :
    (List.range' b (n + 1)).getLast? = some (b + n) := by
  rw [List.range'_concat]
  simp [List.getLast?_concat]

theorem range'_nodup (b n : Nat) : (List.range' b n).Nodup := by
  simp [List.nodup_range']

theorem Rep.headEq {dbl : Bool} {s : ListState α} {addrs : List Nat}
    (h : Rep dbl s addrs) : s.head = addrs.head? := by
  cases addrs with
  | nil => exact h.nextPath
  | cons a rest => exact h.nextPath.1

theorem Rep.bounded {dbl : Bool} {s : ListState α} {addrs : List Nat}
    (h : Rep dbl s addrs) : ∀ a ∈ addrs, a < s.nodes.length :=
  pathVia_bounded h.nextPath

theorem rep_empty (dbl : Bool) : Rep dbl (emptyState (α := α)) [] where
  nextPath := rfl
  prevPath := fun _ => rfl
  tailEq := rfl
  countEq := rfl
  nodup := List.nodup_nil

theorem mem_range'_ge {b k a : Nat} (h : a ∈ List.range' b k) : b ≤ a := by
  rcases List.mem_range'.1 h with ⟨i, -, rfl⟩
  omega

theorem newList_eq_push (dbl : Bool) (x : α) (rest : List α) :
    newList dbl (x :: rest) = push dbl emptyState x rest := rfl

theorem addChainToEnd_some {dbl : Bool} {s : ListState α} {c : Chain}
    {t : Nat} (ht : s.tail = some t) :
    addChainToEnd dbl s c =
      { s with
        nodes := if dbl then
            updPrev (updNext s.nodes t (some c.first)) c.first (some t)
          else updNext s.nodes t (some c.first),
        tail := some c.last, count := s.count + c.count } := by
  unfold addChainToEnd
  rw [ht]

theorem addChainToEnd_none {dbl : Bool} {s : ListState α} {c : Chain}
    (ht : s.tail = none) :
    addChainToEnd dbl s c =
      { s with head := some c.first, tail := some c.last,
               count := s.count + c.count } := by
  unfold addChainToEnd
  rw [ht]

theorem rep_push {dbl : Bool} {s : ListState α} {addrs : List Nat}
    (h : Rep dbl s addrs) (x : α) (others : List α) :
    Rep dbl (push dbl s x others)
      (addrs ++ List.range' s.nodes.length (1 + others.length)) ∧
    itemsOf (push dbl s x others).nodes
        (addrs ++ List.range' s.nodes.length (1 + others.length)) =
      itemsOf s.nodes addrs ++ x :: others := by
  have hpushdef : push dbl s x others =
      addChainToEnd dbl
        { s with nodes := s.nodes ++ chainNodes dbl none s.nodes.length x others }
        ⟨s.nodes.length, s.nodes.length + others.length, 1 + others.length⟩ := rfl
  have hlenC : (s.nodes ++ chainNodes dbl none s.nodes.length x others).length
      = s.nodes.length + (1 + others.length) := by
    rw [List.length_append, length_chainNodes]
  have hchain_next : PathVia
      (nextAt (s.nodes ++ chainNodes dbl none s.nodes.length x others))
      (s.nodes ++ chainNodes dbl none s.nodes.length x others).length
      (some s.nodes.length) (List.range' s.nodes.length (1 + others.length))
      none := chain_next_path (le_of_eq hlenC.symm)
  have hchain_items :
      itemsOf (s.nodes ++ chainNodes dbl none s.nodes.length x others)
        (List.range' s.nodes.length (1 + others.length)) = x :: others :=
    chain_items
  cases htail : s.tail with
  | none =>
      have haddrs : addrs = [] :=
        List.getLast?_eq_none_iff.1 (h.tailEq.symm.trans htail)
      subst haddrs
      rw [hpushdef, addChainToEnd_none (s := { s with
        nodes := s.nodes ++ chainNodes dbl none s.nodes.length x others }) htail]
      refine ⟨⟨?_, ?_, ?_, ?_, ?_⟩, ?_⟩
      · show PathVia _ _ (some s.nodes.length) _ none
        simpa using hchain_next
      · intro hdbl
        subst hdbl
        show PathVia _ _ (some (s.nodes.length + others.length)) _ none
        simpa using chain_prev_path (p := none) (le_of_eq hlenC.symm)
      · show some (s.nodes.length + others.length) = _
        rw [List.nil_append,
          show 1 + others.length = others.length + 1 by omega, range'_getLast?]
      · have hc := h.countEq
        simp only [List.length_nil] at hc
        simp [hc]
      · simpa using range'_nodup s.nodes.length (1 + others.length)
      · simpa using hchain_items
  | some t =>
      obtain ⟨init, haddrs⟩ :=
        List.getLast?_eq_some_iff.1 (h.tailEq.symm.trans htail)
      subst haddrs
      have hnd := h.nodup
      rcases List.nodup_append.1 hnd with ⟨hndinit, -, hdisj⟩
      have hti : t ∉ init := fun hmem => hdisj hmem (by simp)
      have hbnd := h.bounded
      have ht_lt : t < s.nodes.length := hbnd t (by simp)
      have hinit_lt : ∀ a ∈ init, a < s.nodes.length := fun a ha =>
        hbnd a (List.mem_append_left _ ha)
      have hex : ∃ ns2 : List (Node α),
          push dbl s x others =
            { s with nodes := ns2,
                     tail := some (s.nodes.length + others.length),
                     count := s.count + (1 + others.length) } ∧
          ns2.length =
            (s.nodes ++ chainNodes dbl none s.nodes.length x others).length ∧
          (∀ j, nextAt ns2 j = nextAt
            (updNext (s.nodes ++ chainNodes dbl none s.nodes.length x others)
              t (some s.nodes.length)) j) ∧
          (∀ j, j ≠ s.nodes.length → prevAt ns2 j = prevAt
            (s.nodes ++ chainNodes dbl none s.nodes.length x others) j) ∧
          (dbl = true → prevAt ns2 s.nodes.length = some t) ∧
          (∀ j, itemAt ns2 j = itemAt
            (s.nodes ++ chainNodes dbl none s.nodes.length x others) j) := by
        cases dbl with
        | false =>
            refine ⟨updNext (s.nodes ++
              chainNodes false none s.nodes.length x others) t
                (some s.nodes.length),
              by
                rw [hpushdef, addChainToEnd_some (s := { s with
                  nodes := s.nodes ++
                    chainNodes false none s.nodes.length x others }) htail]
                simp,
              length_updNext _ _ _, fun j => rfl, ?_, ?_, ?_⟩
            · intro j _
              exact prevAt_updNext _ _ _ j
            · intro hcontra
              exact absurd hcontra (by decide)
            · intro j
              exact itemAt_updNext _ _ _ j
        | true =>
            refine ⟨updPrev (updNext (s.nodes ++
              chainNodes true none s.nodes.length x others) t
                (some s.nodes.length)) s.nodes.length (some t),
              by
                rw [hpushdef, addChainToEnd_some (s := { s with
                  nodes := s.nodes ++
                    chainNodes true none s.nodes.length x others }) htail]
                simp,
              by rw [length_updPrev, length_updNext], ?_, ?_, ?_, ?_⟩
            · intro j
              exact nextAt_updPrev _ _ _ j
            · intro j hj
              rw [prevAt_updPrev_ne (fun hh => hj hh.symm),
                prevAt_updNext]
            · intro _
              refine prevAt_updPrev_self ?_ _
              rw [length_updNext, hlenC]
              omega
            · intro j
              rw [itemAt_updPrev, itemAt_updNext]
      obtain ⟨ns2, hres, hlen2, hnext2, hprevne, hprevbase, hitem2⟩ := hex
      have hlen2' : ns2.length = s.nodes.length + (1 + others.length) :=
        hlen2.trans hlenC
      have hbd0 : s.nodes.length ≤ ns2.length := by omega
      have hnextOld : ∀ a ∈ init, nextAt s.nodes a = nextAt ns2 a := by
        intro a ha
        rw [hnext2 a, nextAt_updNext_ne (fun hh => hti (by rw [hh]; exact ha)),
          nextAt_append (hinit_lt a ha)]
      have hnew_t : nextAt ns2 t = some s.nodes.length := by
        rw [hnext2 t]
        exact nextAt_updNext_self (by omega) _
      have hchain2 : ∀ a ∈ List.range' s.nodes.length (1 + others.length),
          nextAt (s.nodes ++ chainNodes dbl none s.nodes.length x others) a
            = nextAt ns2 a := by
        intro a ha
        have hge : s.nodes.length ≤ a := mem_range'_ge ha
        rw [hnext2 a, nextAt_updNext_ne (by omega)]
      rw [hres]
      refine ⟨⟨?_, ?_, ?_, ?_, ?_⟩, ?_⟩
      · show PathVia (nextAt ns2) ns2.length s.head _ none
        refine pathVia_append (q := some s.nodes.length) ?_ ?_
        · exact pathVia_set_last
            (pathVia_congr (fun _ _ => rfl) hbd0 h.nextPath) hnextOld hnew_t
        · exact pathVia_congr hchain2 (le_of_eq hlen2.symm) hchain_next
      · intro hdbl
        subst hdbl
        show PathVia (prevAt ns2) ns2.length
          (some (s.nodes.length + others.length)) _ none
        rw [List.reverse_append]
        refine pathVia_append (q := some t) ?_ ?_
        · have hchainA_rev :
              (List.range' s.nodes.length (1 + others.length)).reverse =
                (List.range' (s.nodes.length + 1) others.length).reverse ++
                  [s.nodes.length] := by
            rw [show 1 + others.length = others.length + 1 by omega,
              List.range'_succ, List.reverse_cons]
          rw [hchainA_rev]
          have hcp := @chain_prev_path _ none x others s.nodes _
            (le_of_eq hlenC.symm)
          rw [hchainA_rev] at hcp
          refine pathVia_set_last
            (pathVia_congr (fun _ _ => rfl) (le_of_eq hlen2.symm) hcp) ?_
            (hprevbase rfl)
          intro a ha
          have hge : s.nodes.length + 1 ≤ a :=
            mem_range'_ge (List.mem_reverse.1 ha)
          exact (hprevne a (by omega)).symm
        · have hold := h.prevPath rfl
          rw [htail] at hold
          refine pathVia_congr ?_ hbd0 hold
          intro a ha
          have hamem : a ∈ init ++ [t] := List.mem_reverse.1 ha
          have halt : a < s.nodes.length := hbnd a hamem
          rw [hprevne a (by omega), prevAt_append halt]
      · show some (s.nodes.length + others.length) = _
        rw [List.getLast?_append_of_ne_nil _ (by
              intro hnil
              have hz : (List.range' s.nodes.length (1 + others.length)).length
                  = 0 := by rw [hnil]; rfl
              rw [List.length_range'] at hz
              omega),
          show 1 + others.length = others.length + 1 by omega, range'_getLast?]
      · have hc := h.countEq
        simp only [List.length_append, List.length_range',
          List.length_singleton] at hc ⊢
        omega
      · refine List.Nodup.append hnd (range'_nodup _ _) ?_
        intro a ha hb
        have h1 : a < s.nodes.length := hbnd a ha
        have h2 : s.nodes.length ≤ a := mem_range'_ge hb
        omega
      · rw [itemsOf_append]
        have h1 : itemsOf ns2 (init ++ [t]) = itemsOf s.nodes (init ++ [t]) := by
          refine itemsOf_congr ?_
          intro a ha
          rw [hitem2 a, itemAt_append (hbnd a ha)]
        have h2 : itemsOf ns2 (List.range' s.nodes.length (1 + others.length))
            = x :: others := by
          rw [itemsOf_congr (fun a _ => hitem2 a), hchain_items]
        rw [h1, h2]

theorem pathVia_getLast {σ : Nat → Option Nat} {bd : Nat} {p q : Option Nat}
    {l : List Nat} {a : Nat} (h : PathVia σ bd p l q)
    (ha : l.getLast? = some a) : σ a = q := by
  obtain ⟨init, rfl⟩ := List.getLast?_eq_some_iff.1 ha
  obtain ⟨q', h1, h2⟩ := pathVia_append_inv h
  exact (pathVia_singleton.1 h2).2.2

theorem mem_range'_lt {b k a : Nat} (h : a ∈ List.range' b k) : a < b + k := by
  rcases List.mem_range'.1 h with ⟨i, hi, rfl⟩
  omega

theorem addChainToStart_false_of_tail_some {s : ListState α} {c : Chain}
    {t : Nat} (ht : s.tail = some t) :
    addChainToStart false s c =
      { s with nodes := updNext s.nodes c.last s.head, head := some c.first,
               count := s.count + c.count } := by
  unfold addChainToStart
  rw [if_neg (by simp), if_neg (by simp [ht])]

theorem addChainToStart_false_of_tail_none {s : ListState α} {c : Chain}
    (ht : s.tail = none) :
    addChainToStart false s c =
      { s with nodes := updNext s.nodes c.last s.head, head := some c.first,
               tail := some c.last, count := s.count + c.count } := by
  unfold addChainToStart
  rw [if_neg (by simp), if_pos (by simp [ht])]

theorem addChainToStart_true_some {s : ListState α} {c : Chain} {hh : Nat}
    (hhead : s.head = some hh) :
    addChainToStart true s c =
      { s with
        nodes := updPrev (updNext s.nodes c.last (some hh)) hh (some c.last),
        head := some c.first, count := s.count + c.count } := by
  unfold addChainToStart
  rw [if_pos rfl, hhead]

theorem addChainToStart_true_none {s : ListState α} {c : Chain}
    (hhead : s.head = none) :
    addChainToStart true s c =
      { s with tail := some c.last, head := some c.first,
               count := s.count + c.count } := by
  unfold addChainToStart
  rw [if_pos rfl, hhead]

theorem rep_unshift {dbl : Bool} {s : ListState α} {addrs : List Nat}
    (h : Rep dbl s addrs) (x : α) (others : List α) :
    Rep dbl (unshift dbl s x others)
      (List.range' s.nodes.length (1 + others.length) ++ addrs) ∧
    itemsOf (unshift dbl s x others).nodes
        (List.range' s.nodes.length (1 + others.length) ++ addrs) =
      (x :: others) ++ itemsOf s.nodes addrs := by
  have hudef : unshift dbl s x others =
      addChainToStart dbl
        { s with nodes := s.nodes ++ chainNodes dbl none s.nodes.length x others }
        ⟨s.nodes.length, s.nodes.length + others.length, 1 + others.length⟩ := rfl
  have hlenC : (s.nodes ++ chainNodes dbl none s.nodes.length x others).length
      = s.nodes.length + (1 + others.length) := by
    rw [List.length_append, length_chainNodes]
  have hchain_next : PathVia
      (nextAt (s.nodes ++ chainNodes dbl none s.nodes.length x others))
      (s.nodes ++ chainNodes dbl none s.nodes.length x others).length
      (some s.nodes.length) (List.range' s.nodes.length (1 + others.length))
      none := chain_next_path (le_of_eq hlenC.symm)
  have hchain_items :
      itemsOf (s.nodes ++ chainNodes dbl none s.nodes.length x others)
        (List.range' s.nodes.length (1 + others.length)) = x :: others :=
    chain_items
  have hchainA_split : List.range' s.nodes.length (1 + others.length) =
      List.range' s.nodes.length others.length ++
        [s.nodes.length + others.length] := by
    rw [show 1 + others.length = others.length + 1 by omega, List.range'_concat]
    simp
  have hlastnext :
      nextAt (s.nodes ++ chainNodes dbl none s.nodes.length x others)
        (s.nodes.length + others.length) = none :=
    pathVia_getLast hchain_next
      (by rw [show 1 + others.length = others.length + 1 by omega,
              range'_getLast?])
  cases hhead : s.head with
  | none =>
      have haddrs : addrs = [] := by
        have hh := h.headEq
        rw [hhead] at hh
        exact List.head?_eq_none_iff.1 hh.symm
      subst haddrs
      have htail : s.tail = none := by rw [h.tailEq]; rfl
      have hex : ∃ ns2 : List (Node α),
          unshift dbl s x others =
            { s with nodes := ns2, head := some s.nodes.length,
                     tail := some (s.nodes.length + others.length),
                     count := s.count + (1 + others.length) } ∧
          ns2.length =
            (s.nodes ++ chainNodes dbl none s.nodes.length x others).length ∧
          (∀ j, j ≠ s.nodes.length + others.length → nextAt ns2 j = nextAt
            (s.nodes ++ chainNodes dbl none s.nodes.length x others) j) ∧
          nextAt ns2 (s.nodes.length + others.length) = none ∧
          (∀ j, prevAt ns2 j = prevAt
            (s.nodes ++ chainNodes dbl none s.nodes.length x others) j) ∧
          (∀ j, itemAt ns2 j = itemAt
            (s.nodes ++ chainNodes dbl none s.nodes.length x others) j) := by
        cases dbl with
        | false =>
            refine ⟨updNext (s.nodes ++
              chainNodes false none s.nodes.length x others)
                (s.nodes.length + others.length) none,
              ?_, length_updNext _ _ _, ?_, ?_, ?_, ?_⟩
            · rw [hudef, addChainToStart_false_of_tail_none (s := { s with
                nodes := s.nodes ++
                  chainNodes false none s.nodes.length x others }) htail]
              show ({ s with
                nodes := updNext (s.nodes ++
                  chainNodes false none s.nodes.length x others)
                    (s.nodes.length + others.length) s.head,
                head := some s.nodes.length,
                tail := some (s.nodes.length + others.length),
                count := s.count + (1 + others.length) } : ListState α) = _
              rw [hhead]
            · intro j hj
              exact nextAt_updNext_ne (fun hh => hj hh.symm) _
            · refine nextAt_updNext_self ?_ _
              rw [hlenC]
              omega
            · intro j
              exact prevAt_updNext _ _ _ j
            · intro j
              exact itemAt_updNext _ _ _ j
        | true =>
            refine ⟨s.nodes ++ chainNodes true none s.nodes.length x others,
              ?_, rfl, fun j _ => rfl, hlastnext, fun j => rfl, fun j => rfl⟩
            rw [hudef, addChainToStart_true_none (s := { s with
              nodes := s.nodes ++
                chainNodes true none s.nodes.length x others }) hhead]
      obtain ⟨ns2, hres, hlen2, hne2, hself2, hprev2, hitem2⟩ := hex
      rw [hres]
      refine ⟨⟨?_, ?_, ?_, ?_, ?_⟩, ?_⟩
      · show PathVia (nextAt ns2) ns2.length (some s.nodes.length) _ none
        rw [List.append_nil, hchainA_split]
        rw [hchainA_split] at hchain_next
        refine pathVia_set_last
          (pathVia_congr (fun _ _ => rfl) (le_of_eq hlen2.symm) hchain_next)
          ?_ hself2
        intro a ha
        have := mem_range'_lt ha
        exact (hne2 a (by omega)).symm
      · intro hdbl
        subst hdbl
        show PathVia (prevAt ns2) ns2.length
          (some (s.nodes.length + others.length)) _ none
        rw [List.append_nil]
        refine pathVia_congr (fun a _ => (hprev2 a).symm)
          (le_of_eq hlen2.symm) ?_
        exact chain_prev_path (p := none) (le_of_eq hlenC.symm)
      · show some (s.nodes.length + others.length) = _
        rw [List.append_nil,
          show 1 + others.length = others.length + 1 by omega, range'_getLast?]
      · have hc := h.countEq
        simp only [List.length_nil] at hc
        simp [hc]
      · simpa using range'_nodup s.nodes.length (1 + others.length)
      · rw [List.append_nil, itemsOf_congr (fun a _ => hitem2 a), hchain_items]
        simp [itemsOf_nil]
  | some hh =>
      obtain ⟨rest, haddrs⟩ : ∃ rest, addrs = hh :: rest := by
        have hhq := h.headEq
        rw [hhead] at hhq
        cases addrs with
        | nil => cases hhq
        | cons a r =>
            simp only [List.head?_cons, Option.some.injEq] at hhq
            exact ⟨r, by rw [hhq]⟩
      subst haddrs
      have hbnd := h.bounded
      have hh_lt : hh < s.nodes.length := hbnd hh (by simp)
      have hhnr : hh ∉ rest := by
        have := h.nodup
        simp only [List.nodup_cons] at this
        exact this.1
      obtain ⟨t0, ht0⟩ : ∃ t0, s.tail = some t0 := by
        rw [h.tailEq]
        exact ⟨(hh :: rest).getLast (List.cons_ne_nil hh rest),
          List.getLast?_eq_getLast _ _⟩
      have hex : ∃ ns2 : List (Node α),
          unshift dbl s x others =
            { s with nodes := ns2, head := some s.nodes.length,
                     count := s.count + (1 + others.length) } ∧
          ns2.length =
            (s.nodes ++ chainNodes dbl none s.nodes.length x others).length ∧
          (∀ j, j ≠ s.nodes.length + others.length → nextAt ns2 j = nextAt
            (s.nodes ++ chainNodes dbl none s.nodes.length x others) j) ∧
          nextAt ns2 (s.nodes.length + others.length) = some hh ∧
          (∀ j, j ≠ hh → prevAt ns2 j = prevAt
            (s.nodes ++ chainNodes dbl none s.nodes.length x others) j) ∧
          (dbl = true →
            prevAt ns2 hh = some (s.nodes.length + others.length)) ∧
          (∀ j, itemAt ns2 j = itemAt
            (s.nodes ++ chainNodes dbl none s.nodes.length x others) j) := by
        cases dbl with
        | false =>
            refine ⟨updNext (s.nodes ++
              chainNodes false none s.nodes.length x others)
                (s.nodes.length + others.length) (some hh),
              ?_, length_updNext _ _ _, ?_, ?_, ?_, ?_, ?_⟩
            · rw [hudef, addChainToStart_false_of_tail_some (s := { s with
                nodes := s.nodes ++
                  chainNodes false none s.nodes.length x others }) ht0]
              show ({ s with
                nodes := updNext (s.nodes ++
                  chainNodes false none s.nodes.length x others)
                    (s.nodes.length + others.length) s.head,
                head := some s.nodes.length,
                count := s.count + (1 + others.length) } : ListState α) = _
              rw [hhead]
            · intro j hj
              exact nextAt_updNext_ne (fun hc => hj hc.symm) _
            · refine nextAt_updNext_self ?_ _
              rw [hlenC]
              omega
            · intro j _
              exact prevAt_updNext _ _ _ j
            · intro hcontra
              exact absurd hcontra (by decide)
            · intro j
              exact itemAt_updNext _ _ _ j
        | true =>
            refine ⟨updPrev (updNext (s.nodes ++
              chainNodes true none s.nodes.length x others)
                (s.nodes.length + others.length) (some hh)) hh
                (some (s.nodes.length + others.length)),
              ?_, by rw [length_updPrev, length_updNext], ?_, ?_, ?_, ?_, ?_⟩
            · rw [hudef, addChainToStart_true_some (s := { s with
                nodes := s.nodes ++
                  chainNodes true none s.nodes.length x others }) hhead]
            · intro j hj
              rw [nextAt_updPrev, nextAt_updNext_ne (fun hc => hj hc.symm)]
            · rw [nextAt_updPrev]
              refine nextAt_updNext_self ?_ _
              rw [hlenC]
              omega
            · intro j hj
              rw [prevAt_updPrev_ne (fun hc => hj hc.symm), prevAt_updNext]
            · intro _
              refine prevAt_updPrev_self ?_ _
              rw [length_updNext, hlenC]
              omega
            · intro j
              rw [itemAt_updPrev, itemAt_updNext]
      obtain ⟨ns2, hres, hlen2, hne2, hself2, hprevne2, hprevhh2, hitem2⟩ := hex
      have hbd0 : s.nodes.length ≤ ns2.length := by
        rw [hlen2, hlenC]
        omega
      rw [hres]
      refine ⟨⟨?_, ?_, ?_, ?_, ?_⟩, ?_⟩
      · show PathVia (nextAt ns2) ns2.length (some s.nodes.length) _ none
        refine pathVia_append (q := some hh) ?_ ?_
        · rw [hchainA_split]
          rw [hchainA_split] at hchain_next
          refine pathVia_set_last
            (pathVia_congr (fun _ _ => rfl) (le_of_eq hlen2.symm) hchain_next)
            ?_ hself2
          intro a ha
          have := mem_range'_lt ha
          exact (hne2 a (by omega)).symm
        · refine pathVia_congr ?_ hbd0 (hhead ▸ h.nextPath)
          intro a ha
          have halt : a < s.nodes.length := hbnd a ha
          rw [hne2 a (by omega), nextAt_append halt]
      · intro hdbl
        subst hdbl
        show PathVia (prevAt ns2) ns2.length s.tail _ none
        rw [List.reverse_append]
        refine pathVia_append (q := some (s.nodes.length + others.length)) ?_ ?_
        · have hold := h.prevPath rfl
          rw [List.reverse_cons] at hold ⊢
          refine pathVia_set_last
            (pathVia_congr (fun _ _ => rfl) hbd0 hold) ?_ (hprevhh2 rfl)
          intro a ha
          have hamem : a ∈ rest := List.mem_reverse.1 ha
          have halt : a < s.nodes.length := hbnd a (List.mem_cons_of_mem _ hamem)
          rw [hprevne2 a (fun hc => hhnr (hc ▸ hamem)), prevAt_append halt]
        · refine pathVia_congr ?_ (le_of_eq hlen2.symm)
            (@chain_prev_path _ none x others s.nodes _
              (le_of_eq hlenC.symm))
          intro a ha
          have hge : s.nodes.length ≤ a := mem_range'_ge (List.mem_reverse.1 ha)
          exact (hprevne2 a (by omega)).symm
      · show s.tail = _
        rw [List.getLast?_append_of_ne_nil _ (List.cons_ne_nil hh rest)]
        exact h.tailEq
      · have hc := h.countEq
        simp only [List.length_cons] at hc
        simp only [List.length_append, List.length_range', List.length_cons]
        omega
      · refine List.Nodup.append (range'_nodup _ _) h.nodup ?_
        intro a ha hb
        have h1 : s.nodes.length ≤ a := mem_range'_ge ha
        have h2 : a < s.nodes.length := hbnd a hb
        omega
      · rw [itemsOf_append]
        have h1 : itemsOf ns2 (List.range' s.nodes.length (1 + others.length))
            = x :: others := by
          rw [itemsOf_congr (fun a _ => hitem2 a), hchain_items]
        have h2 : itemsOf ns2 (hh :: rest) = itemsOf s.nodes (hh :: rest) := by
          refine itemsOf_congr ?_
          intro a ha
          rw [hitem2 a, itemAt_append (hbnd a ha)]
        rw [h1, h2]

theorem itemAt_lt {ns : List (Node α)} {a : Nat} (ha : a < ns.length) :
    ∃ it, itemAt ns a = some it :=
  ⟨ns[a].item, by simp [itemAt, List.getElem?_eq_getElem ha]⟩

theorem baseShift_none {s : ListState α} (hh : s.head = none) :
    baseShift s = (s, none) := by
  unfold baseShift
  rw [hh]

theorem baseShift_some {s : ListState α} {a : Nat} (hh : s.head = some a) :
    baseShift s =
      ({ s with head := nextAt s.nodes a,
                tail := if s.tail = some a then nextAt s.nodes a else s.tail,
                count := s.count - 1 }, itemAt s.nodes a) := by
  unfold baseShift
  rw [hh]

theorem shift_of_head_none {dbl : Bool} {s : ListState α}
    (hh : s.head = none) : shift dbl s = (s, none) := by
  unfold shift
  rw [baseShift_none hh]
  cases dbl with
  | false => rfl
  | true =>
      show (match (s, (none : Option α)).1.head with
        | some h2 =>
            ({ (s, (none : Option α)).1 with
               nodes := updPrev (s, (none : Option α)).1.nodes h2 none },
             (s, (none : Option α)).2)
        | none => (s, (none : Option α))) = (s, none)
      rw [show (s, (none : Option α)).1.head = none from hh]

theorem pop_of_tail_none {s : ListState α} (ht : s.tail = none) :
    pop s = (s, none) := by
  unfold pop
  rw [ht]

theorem rep_shift {dbl : Bool} {s : ListState α} {addrs : List Nat}
    (h : Rep dbl s addrs) :
    (addrs = [] → shift dbl s = (s, none)) ∧
    (∀ a rest, addrs = a :: rest →
      Rep dbl (shift dbl s).1 rest ∧
      (shift dbl s).2 = itemAt s.nodes a ∧
      (∃ it, itemAt s.nodes a = some it) ∧
      (∀ j, itemAt (shift dbl s).1.nodes j = itemAt s.nodes j) ∧
      (shift dbl s).1.count = s.count - 1) := by
  constructor
  · intro haddrs
    subst haddrs
    have hh : s.head = none := by rw [h.headEq]; rfl
    exact shift_of_head_none hh
  · intro a rest haddrs
    subst haddrs
    have hh : s.head = some a := by rw [h.headEq]; rfl
    have hbnd := h.bounded
    have ha_lt : a < s.nodes.length := hbnd a (by simp)
    have hanr : a ∉ rest := (List.nodup_cons.1 h.nodup).1
    have hrest_path : PathVia (nextAt s.nodes) s.nodes.length
        (nextAt s.nodes a) rest none := h.nextPath.2.2
    cases rest with
    | nil =>
        have hnext_none : nextAt s.nodes a = none := hrest_path
        have htaila : s.tail = some a := by rw [h.tailEq]; rfl
        have hsplit : shift dbl s =
            ({ s with head := none, tail := none, count := s.count - 1 },
             itemAt s.nodes a) := by
          unfold shift
          rw [baseShift_some hh, if_pos htaila, hnext_none]
          cases dbl with
          | false => rfl
          | true => rfl
        rw [hsplit]
        have hc := h.countEq
        simp only [List.length_cons, List.length_nil] at hc
        refine ⟨⟨rfl, fun _ => rfl, rfl, by simp; omega, List.nodup_nil⟩,
          rfl, itemAt_lt ha_lt, fun j => rfl, rfl⟩
    | cons b rest' =>
        have hnext_b : nextAt s.nodes a = some b := hrest_path.1
        have htail_ne : ¬ s.tail = some a := by
          rw [h.tailEq, List.getLast?_cons_cons]
          intro hcontra
          obtain ⟨ys, hys⟩ := List.getLast?_eq_some_iff.1 hcontra
          exact hanr (by rw [hys]; simp)
        have hbnr : b ∉ rest' := (List.nodup_cons.1 (List.nodup_cons.1 h.nodup).2).1
        have hex : ∃ ns2 : List (Node α),
            shift dbl s =
              ({ s with
                  nodes := ns2, head := some b, count := s.count - 1 },
               itemAt s.nodes a) ∧
            ns2.length = s.nodes.length ∧
            (∀ j, nextAt ns2 j = nextAt s.nodes j) ∧
            (∀ j, j ≠ b → prevAt ns2 j = prevAt s.nodes j) ∧
            (dbl = true → prevAt ns2 b = none) ∧
            (∀ j, itemAt ns2 j = itemAt s.nodes j) := by
          cases dbl with
          | false =>
              refine ⟨s.nodes, ?_, rfl, fun j => rfl, fun j _ => rfl,
                fun hcontra => absurd hcontra (by decide), fun j => rfl⟩
              unfold shift
              rw [baseShift_some hh, if_neg htail_ne, hnext_b]
              rfl
          | true =>
              refine ⟨updPrev s.nodes b none, ?_, length_updPrev _ _ _,
                nextAt_updPrev _ _ _, fun j hj =>
                  prevAt_updPrev_ne (fun hc => hj hc.symm) _,
                fun _ => prevAt_updPrev_self (hbnd b (by simp)) _,
                itemAt_updPrev _ _ _⟩
              unfold shift
              rw [baseShift_some hh, if_neg htail_ne, hnext_b]
              rfl
        obtain ⟨ns2, hres, hlen2, hnext2, hprevne2, hprevb2, hitem2⟩ := hex
        rw [hres]
        have hbd0 : s.nodes.length ≤ ns2.length := le_of_eq hlen2.symm
        refine ⟨⟨?_, ?_, ?_, ?_, ?_⟩, rfl, itemAt_lt ha_lt,
          fun j => hitem2 j, rfl⟩
        · show PathVia (nextAt ns2) ns2.length (some b) (b :: rest') none
          exact pathVia_congr (fun j _ => (hnext2 j).symm) hbd0
            (hnext_b ▸ hrest_path)
        · intro hdbl
          subst hdbl
          show PathVia (prevAt ns2) ns2.length s.tail (b :: rest').reverse none
          have hold := h.prevPath rfl
          rw [show (a :: b :: rest').reverse
              = (b :: rest').reverse ++ [a] from List.reverse_cons a _] at hold
          obtain ⟨q, h1, h2⟩ := pathVia_append_inv hold
          rw [List.reverse_cons] at h1 ⊢
          refine pathVia_set_last (pathVia_congr (fun _ _ => rfl) hbd0 h1) ?_
            (hprevb2 rfl)
          intro j hj
          have hjr : j ∈ rest' := List.mem_reverse.1 hj
          exact (hprevne2 j (fun hc => hbnr (hc ▸ hjr))).symm
        · show s.tail = _
          rw [h.tailEq, List.getLast?_cons_cons]
        · have hc := h.countEq
          simp only [List.length_cons] at hc
          show s.count - 1 = (b :: rest').length
          simp only [List.length_cons]
          omega
        · exact (List.nodup_cons.1 h.nodup).2

theorem pop_some_none {s : ListState α} {t : Nat} (ht : s.tail = some t)
    (hp : prevAt s.nodes t = none) :
    pop s = ({ s with tail := none, head := none, count := s.count - 1 },
             itemAt s.nodes t) := by
  unfold pop
  rw [ht]
  show (let p := prevAt s.nodes t
        let s2 := match p with
          | none => { s with tail := p, head := none, count := s.count - 1 }
          | some t2 =>
              { s with nodes := updNext s.nodes t2 none, tail := p,
                       count := s.count - 1 }
        (s2, itemAt s.nodes t)) = _
  rw [hp]

theorem pop_some_some {s : ListState α} {t t2 : Nat} (ht : s.tail = some t)
    (hp : prevAt s.nodes t = some t2) :
    pop s =
      ({ s with
          nodes := updNext s.nodes t2 none, tail := some t2,
          count := s.count - 1 },
       itemAt s.nodes t) := by
  unfold pop
  rw [ht]
  show (let p := prevAt s.nodes t
        let s2 := match p with
          | none => { s with tail := p, head := none, count := s.count - 1 }
          | some t2 =>
              { s with nodes := updNext s.nodes t2 none, tail := p,
                       count := s.count - 1 }
        (s2, itemAt s.nodes t)) = _
  rw [hp]

theorem rep_pop {s : ListState α} {addrs : List Nat}
    (h : Rep true s addrs) :
    (addrs = [] → pop s = (s, none)) ∧
    (∀ init t, addrs = init ++ [t] →
      Rep true (pop s).1 init ∧
      (pop s).2 = itemAt s.nodes t ∧
      (∃ it, itemAt s.nodes t = some it) ∧
      (∀ j, itemAt (pop s).1.nodes j = itemAt s.nodes j) ∧
      (pop s).1.count = s.count - 1 ∧
      (pop s).1.tail = prevAt s.nodes t ∧
      (prevAt s.nodes t = none → (pop s).1.head = none) ∧
      (∀ t2, prevAt s.nodes t = some t2 →
        nextAt (pop s).1.nodes t2 = none)) := by
  constructor
  · intro haddrs
    subst haddrs
    have ht : s.tail = none := by rw [h.tailEq]; rfl
    exact pop_of_tail_none ht
  · intro init t haddrs
    subst haddrs
    have ht : s.tail = some t := by
      rw [h.tailEq, List.getLast?_concat]
    have hbnd := h.bounded
    have ht_lt : t < s.nodes.length := hbnd t (by simp)
    have hti : t ∉ init := by
      rcases List.nodup_append.1 h.nodup with ⟨-, -, hdisj⟩
      exact fun hmem => hdisj hmem (by simp)
    have hprevpath := h.prevPath rfl
    rw [show (init ++ [t]).reverse = t :: init.reverse by
          rw [List.reverse_append, List.reverse_singleton]; rfl] at hprevpath
    have hprevrest : PathVia (prevAt s.nodes) s.nodes.length
        (prevAt s.nodes t) init.reverse none := hprevpath.2.2
    rcases List.eq_nil_or_concat' init with hinit | ⟨init0, t', hinit0⟩
    · subst hinit
      have hp : prevAt s.nodes t = none := hprevrest
      rw [pop_some_none ht hp]
      have hc := h.countEq
      simp only [List.nil_append, List.length_cons, List.length_nil] at hc
      refine ⟨⟨rfl, fun _ => rfl, rfl, by simp; omega, List.nodup_nil⟩,
        rfl, itemAt_lt ht_lt, fun j => rfl, rfl, hp.symm, fun _ => rfl,
        fun t2 hc2 => absurd (hp.symm.trans hc2) (by simp)⟩
    · subst hinit0
      have hp : prevAt s.nodes t = some t' := by
        rw [show (init0 ++ [t']).reverse = t' :: init0.reverse by
              rw [List.reverse_append, List.reverse_singleton]; rfl]
          at hprevrest
        exact hprevrest.1
      have ht'_mem : t' ∈ init0 ++ [t'] := by simp
      have ht'_lt : t' < s.nodes.length :=
        hbnd t' (List.mem_append_left _ ht'_mem)
      have hndinit : (init0 ++ [t']).Nodup :=
        (List.nodup_append.1 h.nodup).1
      have ht'ni0 : t' ∉ init0 := fun hmem =>
        (List.nodup_append.1 hndinit).2.2 hmem (by simp)
      rw [pop_some_some ht hp]
      have hlen2 : (updNext s.nodes t' none).length = s.nodes.length :=
        length_updNext _ _ _
      have hc := h.countEq
      simp only [List.length_append, List.length_singleton] at hc
      refine ⟨⟨?_, ?_, ?_, ?_, hndinit⟩, rfl, itemAt_lt ht_lt,
        fun j => itemAt_updNext _ _ _ j, rfl, hp.symm,
        fun hcontra => absurd (hp.symm.trans hcontra) (by simp), ?_⟩
      · show PathVia (nextAt (updNext s.nodes t' none))
          (updNext s.nodes t' none).length s.head (init0 ++ [t']) none
        obtain ⟨q, h1, h2⟩ := pathVia_append_inv h.nextPath
        refine pathVia_congr (fun _ _ => rfl) (le_of_eq hlen2.symm) ?_
        refine pathVia_set_last h1 ?_ (nextAt_updNext_self ht'_lt none)
        intro j hj
        exact (nextAt_updNext_ne
          (fun hc2 => ht'ni0 (by rw [hc2]; exact hj)) none).symm
      · intro _
        show PathVia (prevAt (updNext s.nodes t' none))
          (updNext s.nodes t' none).length (some t')
          (init0 ++ [t']).reverse none
        rw [hp] at hprevrest
        exact pathVia_congr (fun j _ => (prevAt_updNext _ _ _ j).symm)
          (le_of_eq hlen2.symm) hprevrest
      · show some t' = _
        rw [List.getLast?_concat]
      · show s.count - 1 = (init0 ++ [t']).length
        simp only [List.length_append, List.length_singleton]
        omega
      · intro t2 hc2
        have ht2 : t' = t2 := Option.some.inj (hp.symm.trans hc2)
        subst ht2
        show nextAt (updNext s.nodes t' none) t' = none
        exact nextAt_updNext_self ht'_lt none

/-- Every reachable state satisfies the representation invariant. -/
theorem reach_rep {dbl : Bool} {s : ListState α} (h : Reach dbl s) :
    ∃ addrs, Rep dbl s addrs := by
  induction h with
  | newR items =>
      cases items with
      | nil => exact ⟨[], rep_empty dbl⟩
      | cons x rest =>
          rw [newList_eq_push]
          exact ⟨_, (rep_push (rep_empty dbl) x rest).1⟩
  | pushR x others _ ih =>
      obtain ⟨addrs, hrep⟩ := ih
      exact ⟨_, (rep_push hrep x others).1⟩
  | unshiftR x others _ ih =>
      obtain ⟨addrs, hrep⟩ := ih
      exact ⟨_, (rep_unshift hrep x others).1⟩
  | shiftR _ ih =>
      obtain ⟨addrs, hrep⟩ := ih
      cases addrs with
      | nil =>
          rw [(rep_shift hrep).1 rfl]
          exact ⟨[], hrep⟩
      | cons a rest => exact ⟨rest, ((rep_shift hrep).2 a rest rfl).1⟩
  | popR _ hd ih =>
      subst hd
      obtain ⟨addrs, hrep⟩ := ih
      rcases List.eq_nil_or_concat' addrs with rfl | ⟨init, t, rfl⟩
      · rw [(rep_pop hrep).1 rfl]
        exact ⟨[], hrep⟩
      · exact ⟨init, ((rep_pop hrep).2 init t rfl).1⟩

theorem iterVia_path {ns : List (Node α)} {σ : Nat → Option Nat}
    {p : Option Nat} {l : List Nat} {fuel : Nat}
    (h : PathVia σ ns.length p l none) (hfuel : l.length ≤ fuel) :
    iterVia ns σ fuel p = itemsOf ns l := by
  induction l generalizing p fuel with
  | nil =>
      rw [pathVia_nil] at h
      subst h
      cases fuel with
      | zero => rfl
      | succ f => rfl
  | cons a rest ih =>
      obtain ⟨hp, ha, hrest⟩ := h
      subst hp
      cases fuel with
      | zero => simp at hfuel
      | succ f =>
          have hg : ns[a]? = some ns[a] := List.getElem?_eq_getElem ha
          rw [show iterVia ns σ (f + 1) (some a) = (match ns[a]? with
              | none => []
              | some nd => nd.item :: iterVia ns σ f (σ a)) from rfl, hg]
          show ns[a].item :: iterVia ns σ f (σ a) = _
          rw [itemsOf_cons (show itemAt ns a = some (ns[a].item) by
                simp [itemAt, hg]),
            ih hrest (by simpa using Nat.le_of_succ_le_succ hfuel)]

theorem toArray_rep {dbl : Bool} {s : ListState α} {addrs : List Nat}
    (h : Rep dbl s addrs) : toArray s = itemsOf s.nodes addrs :=
  iterVia_path h.nextPath (le_of_eq h.countEq.symm)

theorem riter_rep {s : ListState α} {addrs : List Nat}
    (h : Rep true s addrs) :
    riterToArray s = itemsOf s.nodes addrs.reverse :=
  iterVia_path (h.prevPath rfl)
    (by rw [List.length_reverse]; exact le_of_eq h.countEq.symm)

theorem toArray_length {dbl : Bool} {s : ListState α} {addrs : List Nat}
    (h : Rep dbl s addrs) : (toArray s).length = s.count := by
  rw [toArray_rep h, length_itemsOf h.bounded, h.countEq]

theorem follow_path {ns : List (Node α)} {bd : Nat} {p q : Option Nat}
    {l : List Nat} (h : PathVia (nextAt ns) bd p l q) :
    follow ns l.length p = q := by
  induction l generalizing p with
  | nil => exact h
  | cons a rest ih =>
      obtain ⟨hp, -, hrest⟩ := h
      subst hp
      show follow ns (rest.length + 1) (some a) = q
      show follow ns rest.length ((some a).bind (nextAt ns)) = q
      exact ih hrest

theorem rep_first {dbl : Bool} {s : ListState α} {addrs : List Nat}
    (h : Rep dbl s addrs) : first s = (itemsOf s.nodes addrs).head? := by
  cases addrs with
  | nil =>
      have hh : s.head = none := by rw [h.headEq]; rfl
      rw [first, hh, itemsOf_nil]
      rfl
  | cons a rest =>
      have hh : s.head = some a := by rw [h.headEq]; rfl
      obtain ⟨it, hit⟩ := itemAt_lt (h.bounded a (by simp))
      rw [first, hh, itemsOf_cons hit]
      simp [hit]

theorem rep_last {dbl : Bool} {s : ListState α} {addrs : List Nat}
    (h : Rep dbl s addrs) : last s = (itemsOf s.nodes addrs).getLast? := by
  rcases List.eq_nil_or_concat' addrs with rfl | ⟨init, t, rfl⟩
  · have ht : s.tail = none := by rw [h.tailEq]; rfl
    rw [last, ht, itemsOf_nil]
    rfl
  · have ht : s.tail = some t := by rw [h.tailEq, List.getLast?_concat]
    obtain ⟨it, hit⟩ := itemAt_lt (h.bounded t (by simp))
    rw [last, ht, itemsOf_append, itemsOf_cons hit, itemsOf_nil,
      List.getLast?_concat]
    simp [hit]

theorem shift_stream {dbl : Bool} {s : ListState α} {addrs : List Nat}
    (h : Rep dbl s addrs) :
    ∀ k, shiftRet dbl k s = (itemsOf s.nodes addrs)[k]? ∧
      (shiftN dbl k s).count = s.count - k := by
  intro k
  induction k generalizing s addrs with
  | zero =>
      constructor
      · show (shift dbl s).2 = _
        cases addrs with
        | nil =>
            rw [(rep_shift h).1 rfl]
            rfl
        | cons a rest =>
            obtain ⟨-, hret, ⟨it, hit⟩, -, -⟩ := (rep_shift h).2 a rest rfl
            rw [hret, hit, itemsOf_cons hit]
            simp
      · show s.count = s.count - 0
        omega
  | succ k ih =>
      have hstep : shiftN dbl (k + 1) s = shiftN dbl k (shift dbl s).1 := rfl
      have hret : shiftRet dbl (k + 1) s = shiftRet dbl k (shift dbl s).1 := rfl
      cases addrs with
      | nil =>
          have hz := (rep_shift h).1 rfl
          have h1 : (shift dbl s).1 = s := by rw [hz]
          rw [hret, hstep, h1]
          obtain ⟨ih1, ih2⟩ := ih h
          refine ⟨?_, ?_⟩
          · rw [ih1]
            simp [itemsOf_nil]
          · rw [ih2]
            have := h.countEq
            simp only [List.length_nil] at this
            omega
      | cons a rest =>
          obtain ⟨hrep', -, ⟨it, hit⟩, hitem, hcount⟩ :=
            (rep_shift h).2 a rest rfl
          obtain ⟨ih1, ih2⟩ := ih hrep'
          have hio : itemsOf (shift dbl s).1.nodes rest
              = itemsOf s.nodes rest := itemsOf_congr (fun j _ => hitem j)
          refine ⟨?_, ?_⟩
          · rw [hret, hstep] at *
            rw [ih1, hio, itemsOf_cons hit]
            simp
          · rw [hstep] at *
            rw [ih2, hcount]
            have := h.countEq
            simp only [List.length_cons] at this
            omega

theorem toArray_newList (dbl : Bool) (items : List α) :
    toArray (newList dbl items) = items := by
  cases items with
  | nil => rfl
  | cons x rest =>
      rw [newList_eq_push]
      obtain ⟨hrep, hitems⟩ := rep_push (rep_empty (α := α) dbl) x rest
      rw [toArray_rep hrep, hitems]
      rfl

theorem pathVia_chain' {σ : Nat → Option Nat} {bd : Nat} {p q : Option Nat}
    {l : List Nat} (h : PathVia σ bd p l q) :
    List.Chain' (fun a b => σ a = some b) l := by
  induction l generalizing p with
  | nil => exact trivial
  | cons a rest ih =>
      obtain ⟨hp, ha, hrest⟩ := h
      cases rest with
      | nil => simp
      | cons b rest' =>
          rw [List.chain'_cons]
          exact ⟨hrest.1, ih hrest⟩

theorem chain'_and {β : Type} {R S : β → β → Prop} {l : List β}
    (hR : List.Chain' R l) (hS : List.Chain' S l) :
    List.Chain' (fun a b => R a b ∧ S a b) l := by
  induction l with
  | nil => exact trivial
  | cons a rest ih =>
      cases rest with
      | nil => simp
      | cons b rest' =>
          rw [List.chain'_cons] at hR hS ⊢
          exact ⟨⟨hR.1, hS.1⟩, ih hR.2 hS.2⟩

/-- C1: for every reachable state of both list variants (any sequence of
construction, push, unshift, shift and pop), the structural invariant
holds: `head` is absent iff `tail` is absent iff `count == 0`, and
following `next` from `head` visits exactly `count` nodes — the `count`-th
node visited is `tail` (i.e. `count - 1` pointer steps from `head` land on
`tail`) and the `count + 1`-th visit (one further step) yields absence. -/
theorem c1_structural_invariant {dbl : Bool} {s : ListState α}
    (h : Reach dbl s) :
    (s.head = none ↔ s.count = 0) ∧ (s.tail = none ↔ s.count = 0) ∧
    (0 < s.count → follow s.nodes (s.count - 1) s.head = s.tail) ∧
    follow s.nodes s.count s.head = none := by
  obtain ⟨addrs, hrep⟩ := reach_rep h
  refine ⟨?_, ?_, ?_, ?_⟩
  · rw [hrep.headEq, hrep.countEq, List.head?_eq_none_iff,
      List.length_eq_zero]
  · rw [hrep.tailEq, hrep.countEq, List.getLast?_eq_none_iff,
      List.length_eq_zero]
  · intro hpos
    rcases List.eq_nil_or_concat' addrs with rfl | ⟨init, t, rfl⟩
    · rw [hrep.countEq] at hpos
      simp at hpos
    · obtain ⟨q, h1, h2⟩ := pathVia_append_inv hrep.nextPath
      obtain ⟨hq, -, -⟩ := pathVia_singleton.1 h2
      have hlen : s.count - 1 = init.length := by
        rw [hrep.countEq]
        simp
      rw [hlen, follow_path h1, hq, hrep.tailEq, List.getLast?_concat]
  · rw [hrep.countEq]
    exact follow_path hrep.nextPath

/-- C2: for every doubly linked list in any reachable state, the sequence
produced by reverse iteration (`riterator`, following `prev` from `tail`)
is exactly the reverse of the sequence produced by forward iteration
(following `next` from `head`) at that same state; both are finite lists. -/
theorem c2_reverse_iteration {s : ListState α} (h : Reach true s) :
    riterToArray s = (toArray s).reverse := by
  obtain ⟨addrs, hrep⟩ := reach_rep h
  rw [riter_rep hrep, toArray_rep hrep, itemsOf_reverse]

/-- C3: for every reachable state of a doubly linked list the backward-link
invariant holds: the list's nodes form a chain in which every node other
than `head` satisfies `node.prev.next == node`, every node other than
`tail` satisfies `node.next.prev == node` (both captured by the `Chain'`
over consecutive nodes), and `head.prev` and `tail.next` are absent. -/
theorem c3_backward_links {s : ListState α} (h : Reach true s) :
    ∃ addrs : List Nat,
      s.head = addrs.head? ∧ s.tail = addrs.getLast? ∧
      s.count = addrs.length ∧
      List.Chain' (fun a b => nextAt s.nodes a = some b ∧
        prevAt s.nodes b = some a) addrs ∧
      (∀ hh, s.head = some hh → prevAt s.nodes hh = none) ∧
      (∀ t, s.tail = some t → nextAt s.nodes t = none) := by
  obtain ⟨addrs, hrep⟩ := reach_rep h
  refine ⟨addrs, hrep.headEq, hrep.tailEq, hrep.countEq, ?_, ?_, ?_⟩
  · have h1 : List.Chain' (fun a b => nextAt s.nodes a = some b) addrs :=
      pathVia_chain' hrep.nextPath
    have h2 : List.Chain' (fun a b => prevAt s.nodes b = some a) addrs := by
      have h3 := pathVia_chain' (hrep.prevPath rfl)
      rw [List.chain'_reverse] at h3
      exact h3
    exact chain'_and h1 h2
  · intro hh hhead
    refine pathVia_getLast (hrep.prevPath rfl) ?_
    rw [List.getLast?_reverse, ← hrep.headEq, hhead]
  · intro t ht
    refine pathVia_getLast hrep.nextPath ?_
    rw [← hrep.tailEq, ht]

/-- C4: for every list (either variant) holding `n` items, repeated
`shift()` returns those items in original front-to-back order (`k`-th call
returns the `k`-th entry of `toArray`, absence exactly when the entries run
out, hence absence exactly when the list is empty, idempotently so), and
the length after `k` shifts is `n - k` (each successful call decrements it
by one, and it stays `0` afterwards). -/
theorem c4_shift_drains {dbl : Bool} {s : ListState α} (h : Reach dbl s) :
    (toArray s).length = length s ∧
    ∀ k, shiftRet dbl k s = (toArray s)[k]? ∧
      length (shiftN dbl k s) = length s - k := by
  obtain ⟨addrs, hrep⟩ := reach_rep h
  refine ⟨toArray_length hrep, fun k => ?_⟩
  rw [toArray_rep hrep]
  exact shift_stream hrep k

/-- C5: for every non-empty doubly linked list, `pop()` returns the item
held at `tail` (the last item of the iteration), retreats `tail` to
`tail.prev`, clears `head` when the new tail is absent and otherwise clears
the new tail's `next`, and decrements `count`; on the empty doubly linked
list it returns absence.  It thus mirrors `shift()` from the tail end:
the returned item is `toArray`'s last entry and the remaining iteration is
`toArray` minus its last entry. -/
theorem c5_pop_mirrors_shift {s : ListState α} (h : Reach true s) :
    (length s = 0 → pop s = (s, none)) ∧
    (0 < length s →
      (pop s).2 = last s ∧
      (pop s).2 = (toArray s).getLast? ∧
      toArray (pop s).1 = (toArray s).dropLast ∧
      length (pop s).1 = length s - 1 ∧
      (∀ t, s.tail = some t →
        (pop s).1.tail = prevAt s.nodes t ∧
        (prevAt s.nodes t = none → (pop s).1.head = none) ∧
        (∀ t2, prevAt s.nodes t = some t2 →
          nextAt (pop s).1.nodes t2 = none))) := by
  obtain ⟨addrs, hrep⟩ := reach_rep h
  constructor
  · intro hz
    have haddrs : addrs = [] :=
      List.length_eq_zero.1 (hrep.countEq.symm.trans hz)
    subst haddrs
    exact (rep_pop hrep).1 rfl
  · intro hpos
    rcases List.eq_nil_or_concat' addrs with rfl | ⟨init, t0, rfl⟩
    · rw [show length s = s.count from rfl, hrep.countEq] at hpos
      simp at hpos
    · have htail : s.tail = some t0 := by
        rw [hrep.tailEq, List.getLast?_concat]
      obtain ⟨hrep', hret, ⟨it, hit⟩, hitem, hcount, htl, hhd, hnx⟩ :=
        (rep_pop hrep).2 init t0 rfl
      refine ⟨?_, ?_, ?_, hcount, ?_⟩
      · rw [hret, hit, rep_last hrep, itemsOf_append, itemsOf_cons hit,
          itemsOf_nil, List.getLast?_concat]
      · rw [hret, hit, toArray_rep hrep, itemsOf_append, itemsOf_cons hit,
          itemsOf_nil, List.getLast?_concat]
      · rw [toArray_rep hrep', itemsOf_congr (fun j _ => hitem j),
          toArray_rep hrep, itemsOf_append, itemsOf_cons hit, itemsOf_nil,
          List.dropLast_concat]
      · intro t ht'
        have htt : t = t0 := Option.some.inj (ht'.symm.trans htail)
        subst htt
        exact ⟨htl, hhd, hnx⟩

/-- C6: removal from an empty list is signalled by an absence result,
never an error: for every reachable empty list, `shift()` (both variants)
and `pop()` (doubly linked) return absence and return the state completely
unchanged, so repeated calls keep returning absence with no side
effects. -/
theorem c6_empty_removal {dbl : Bool} {s : ListState α} (h : Reach dbl s)
    (he : emptyQ s = true) :
    shift dbl s = (s, none) ∧ (dbl = true → pop s = (s, none)) := by
  obtain ⟨addrs, hrep⟩ := reach_rep h
  have he' : s.count = 0 := by simpa [emptyQ] using he
  have haddrs : addrs = [] :=
    List.length_eq_zero.1 (hrep.countEq.symm.trans he')
  subst haddrs
  refine ⟨(rep_shift hrep).1 rfl, fun hdbl => ?_⟩
  subst hdbl
  exact (rep_pop hrep).1 rfl

/-- C7: for every reachable list (either variant) and every non-empty
argument sequence, `push` appends the items at the end in the given order
with no failure condition: the new iteration is the old one followed by the
pushed items (so on an empty list `push(a, b, c)` yields iteration
`[a, b, c]`, `first() == a`, `last() == c`), the length grows by the number
of items, `first()` is the head of the combined sequence and `last()` the
last pushed item. -/
theorem c7_push_appends {dbl : Bool} {s : ListState α} (x : α)
    (others : List α) (h : Reach dbl s) :
    toArray (push dbl s x others) = toArray s ++ x :: others ∧
    length (push dbl s x others) = length s + (1 + others.length) ∧
    first (push dbl s x others) = (toArray s ++ x :: others).head? ∧
    last (push dbl s x others) = (x :: others).getLast? := by
  obtain ⟨addrs, hrep⟩ := reach_rep h
  obtain ⟨hrep', hitems⟩ := rep_push hrep x others
  refine ⟨?_, ?_, ?_, ?_⟩
  · rw [toArray_rep hrep', hitems, toArray_rep hrep]
  · rw [show length (push dbl s x others) = (push dbl s x others).count
        from rfl, hrep'.countEq, show length s = s.count from rfl,
      hrep.countEq]
    simp [List.length_append, List.length_range']
  · rw [rep_first hrep', hitems, toArray_rep hrep]
  · rw [rep_last hrep', hitems,
      List.getLast?_append_of_ne_nil _ (List.cons_ne_nil _ _)]

/-- C8: round-trip — for every list (either variant) in any reachable
state, constructing a new list of the same variant from the array returned
by `toArray()` produces a list whose forward iteration yields exactly the
same sequence of items as the original's. -/
theorem c8_roundtrip {dbl : Bool} {s : ListState α} (_h : Reach dbl s) :
    toArray (newList dbl (toArray s)) = toArray s :=
  toArray_newList dbl (toArray s)

/-- C9: the three snapshot views agree with forward iteration order:
`toArray()` collects the forward iterator's items (and does not depend on
the fuel artifact: any bound of at least `count` steps gives the same
sequence), `toString()` is those items' textual forms joined by the single
separator `,`, and `toJSON()` is the very sequence `toArray()` returns. -/
theorem c9_snapshot_views {dbl : Bool} {s : ListState α} (h : Reach dbl s)
    (f : α → String) :
    toJSON s = toArray s ∧
    toStringL s f = String.intercalate "," ((toArray s).map f) ∧
    ∀ fuel, s.count ≤ fuel →
      iterVia s.nodes (nextAt s.nodes) fuel s.head = toArray s := by
  obtain ⟨addrs, hrep⟩ := reach_rep h
  refine ⟨rfl, rfl, fun fuel hfuel => ?_⟩
  rw [iterVia_path hrep.nextPath
      (le_trans (le_of_eq hrep.countEq.symm) hfuel),
    toArray_rep hrep]

/-- C10: `push` and `unshift` return the same list instance they were
invoked on — in the world model the returned reference is the receiver's
reference `r` (never a fresh list or an absence), and the world changes
only at `r`, where it now holds the receiver after the mutation (this is
what makes call chaining work). -/
theorem c10_returns_receiver (dbl : Bool) (w : Nat → ListState α) (r : Nat)
    (x : α) (others : List α) :
    (pushAt dbl w r x others).2 = r ∧
    (unshiftAt dbl w r x others).2 = r ∧
    (pushAt dbl w r x others).1 =
      Function.update w r (push dbl (w r) x others) ∧
    (unshiftAt dbl w r x others).1 =
      Function.update w r (unshift dbl (w r) x others) := by
  refine ⟨rfl, rfl, ?_, ?_⟩
  · funext a
    by_cases ha : a = r
    · subst ha
      simp [pushAt, Function.update_apply]
    · simp [pushAt, Function.update_apply, ha]
  · funext a
    by_cases ha : a = r
    · subst ha
      simp [unshiftAt, Function.update_apply]
    · simp [unshiftAt, Function.update_apply, ha]

/-- Witness for C1 at the concrete reachable state obtained by pushing `3`
onto the doubly linked list constructed from `[1, 2]`. -/
theorem c1_witness :
    ((push true (newList true [1, 2]) 3 []).head = none ↔
      (push true (newList true [1, 2]) 3 []).count = 0) ∧
    ((push true (newList true [1, 2]) 3 []).tail = none ↔
      (push true (newList true [1, 2]) 3 []).count = 0) ∧
    follow (push true (newList true [1, 2]) 3 []).nodes
      ((push true (newList true [1, 2]) 3 []).count - 1)
      (push true (newList true [1, 2]) 3 []).head =
      (push true (newList true [1, 2]) 3 []).tail ∧
    follow (push true (newList true [1, 2]) 3 []).nodes
      (push true (newList true [1, 2]) 3 []).count
      (push true (newList true [1, 2]) 3 []).head = none := by
  obtain ⟨h1, h2, h3, h4⟩ :=
    c1_structural_invariant (Reach.pushR 3 [] (Reach.newR [1, 2]))
  exact ⟨h1, h2, h3 (by decide), h4⟩

/-- Witness for C2 at the concrete reachable state obtained by unshifting
and then shifting on a doubly linked list. -/
theorem c2_witness :
    riterToArray (shift true (unshift true (newList true [1, 2]) 5 [6])).1 =
      (toArray
        (shift true (unshift true (newList true [1, 2]) 5 [6])).1).reverse :=
  c2_reverse_iteration
    (Reach.shiftR (Reach.unshiftR 5 [6] (Reach.newR [1, 2])))

/-- Witness for C3 at the concrete reachable state obtained by pushing `8`
onto the doubly linked list constructed from `[7]`. -/
theorem c3_witness :
    ∃ addrs : List Nat,
      (push true (newList true [7]) 8 []).head = addrs.head? ∧
      (push true (newList true [7]) 8 []).tail = addrs.getLast? ∧
      (push true (newList true [7]) 8 []).count = addrs.length ∧
      List.Chain' (fun a b =>
        nextAt (push true (newList true [7]) 8 []).nodes a = some b ∧
        prevAt (push true (newList true [7]) 8 []).nodes b = some a) addrs ∧
      (∀ hh, (push true (newList true [7]) 8 []).head = some hh →
        prevAt (push true (newList true [7]) 8 []).nodes hh = none) ∧
      (∀ t, (push true (newList true [7]) 8 []).tail = some t →
        nextAt (push true (newList true [7]) 8 []).nodes t = none) :=
  c3_backward_links (Reach.pushR 8 [] (Reach.newR [7]))

/-- Witness for C4 on the singly linked list constructed from
`[4, 5, 6]`. -/
theorem c4_witness :
    (toArray (newList false [4, 5, 6])).length =
      length (newList false [4, 5, 6]) ∧
    shiftRet false 1 (newList false [4, 5, 6]) =
      (toArray (newList false [4, 5, 6]))[1]? ∧
    length (shiftN false 3 (newList false [4, 5, 6])) =
      length (newList false [4, 5, 6]) - 3 ∧
    shiftRet false 3 (newList false [4, 5, 6]) =
      (toArray (newList false [4, 5, 6]))[3]? := by
  obtain ⟨h1, h2⟩ := c4_shift_drains (Reach.newR [4, 5, 6])
  exact ⟨h1, (h2 1).1, (h2 3).2, (h2 3).1⟩

/-- Witness for C5 on the doubly linked list constructed from `[1, 2]`
(its tail node sits at arena address 1 and its predecessor at 0). -/
theorem c5_witness :
    (pop (newList true [1, 2])).2 = last (newList true [1, 2]) ∧
    (pop (newList true [1, 2])).2 =
      (toArray (newList true [1, 2])).getLast? ∧
    toArray (pop (newList true [1, 2])).1 =
      (toArray (newList true [1, 2])).dropLast ∧
    length (pop (newList true [1, 2])).1 =
      length (newList true [1, 2]) - 1 ∧
    (pop (newList true [1, 2])).1.tail =
      prevAt (newList true [1, 2]).nodes 1 := by
  obtain ⟨-, h2⟩ := c5_pop_mirrors_shift (Reach.newR [1, 2])
  obtain ⟨ha, hb, hc, hd, he⟩ := h2 (by decide)
  exact ⟨ha, hb, hc, hd, (he 1 (by decide)).1⟩

/-- Witness for C6 on the empty doubly linked list. -/
theorem c6_witness :
    shift true (newList true ([] : List Nat)) =
      (newList true ([] : List Nat), none) ∧
    pop (newList true ([] : List Nat)) =
      (newList true ([] : List Nat), none) := by
  obtain ⟨h1, h2⟩ := c6_empty_removal (s := newList true ([] : List Nat))
    (Reach.newR []) (by decide)
  exact ⟨h1, h2 rfl⟩

/-- Witness for C7: `push(10, 20, 30)` on the empty doubly linked list. -/
theorem c7_witness :
    toArray (push true (newList true ([] : List Nat)) 10 [20, 30]) =
      toArray (newList true ([] : List Nat)) ++ 10 :: [20, 30] ∧
    length (push true (newList true ([] : List Nat)) 10 [20, 30]) =
      length (newList true ([] : List Nat)) + (1 + [20, 30].length) ∧
    first (push true (newList true ([] : List Nat)) 10 [20, 30]) =
      (toArray (newList true ([] : List Nat)) ++ 10 :: [20, 30]).head? ∧
    last (push true (newList true ([] : List Nat)) 10 [20, 30]) =
      (10 :: [20, 30]).getLast? :=
  c7_push_appends 10 [20, 30] (Reach.newR [])

/-- Witness for C8 on the reachable state obtained by unshifting `9` onto
the doubly linked list constructed from `[1, 2]`. -/
theorem c8_witness :
    toArray (newList true
        (toArray (unshift true (newList true [1, 2]) 9 []))) =
      toArray (unshift true (newList true [1, 2]) 9 []) :=
  c8_roundtrip (Reach.unshiftR 9 [] (Reach.newR [1, 2]))

/-- Witness for C9 on the singly linked list constructed from
`[1, 2, 3]`, with fuel 5 for the fuel-independence conjunct. -/
theorem c9_witness :
    toJSON (newList false [1, 2, 3]) = toArray (newList false [1, 2, 3]) ∧
    toStringL (newList false [1, 2, 3]) toString =
      String.intercalate ","
        ((toArray (newList false [1, 2, 3])).map toString) ∧
    iterVia (newList false [1, 2, 3]).nodes
      (nextAt (newList false [1, 2, 3]).nodes) 5
      (newList false [1, 2, 3]).head =
      toArray (newList false [1, 2, 3]) := by
  obtain ⟨h1, h2, h3⟩ := c9_snapshot_views (Reach.newR [1, 2, 3]) toString
  exact ⟨h1, h2, h3 5 (by decide)⟩

end Jetsam
